import Mathlib

/-!
Verification of the `syncpool` object pool (bucketed, bitmap-arbitrated slot
table).  The definitions below are a shallow embedding of the Rust sources:

* `src/syncpool/src/utils.rs`  — bit arbitration primitives (`enter`, masks);
* `src/syncpool/src/bucket.rs` — `Bucket2`: slots, occupancy hint, state word,
  `access` / `leave` / `checkout` / `release`;
* `src/syncpool/src/pool.rs`   — `SyncPool`: `get`, `put`, `expand`, cursors,
  visitor counter / write barrier, miss counter.

Machine integers are modelled as `Nat` with explicit truncation where the
source relies on fixed width (`u16` state words stay below `2 ^ 16` by
construction; the `usize` occupancy hint wraps modulo `2 ^ 64`).
Atomic operations are modelled by explicit state passing: every theorem below
is about the sequential (quiescent / single-threaded) behaviour of the code.
-/

namespace SyncPoolModel

/-- `SLOT_CAP` from `bucket.rs`: slots per bucket. -/
def SLOT_CAP : Nat := 8

/-- `TRIALS_COUNT` from `bucket.rs`: per-bucket access retries. -/
def TRIALS_COUNT : Nat := 4

/-- `GET_MASK` from `utils.rs`. -/
def GET_MASK : Nat := 0b1010101010101010

/-- `PUT_MASK` from `utils.rs`. -/
def PUT_MASK : Nat := 0b1111111111111111

/-- `FULL_FLAG` from `utils.rs`. -/
def FULL_FLAG : Nat := 0b0101010101010101

/-- `usize` modulus: the occupancy hint in the source is a 64-bit `AtomicUsize`
and wraps on under/overflow. -/
def USIZE : Nat := 2 ^ 64

/-- `u16::trailing_zeros`, fuel-indexed: number of trailing zero bits of `n`,
`16` when all 16 low bits are zero (`tzAux 16 n` below). -/
def tzAux : Nat → Nat → Nat
  | 0, _ => 0
  | fuel + 1, n => if n % 2 = 1 then 0 else 1 + tzAux fuel (n / 2)

/-- `trailing_zeros` of a `u16` value (the argument of `enter` is always below
`2 ^ 16`). -/
def trailingZeros16 (n : Nat) : Nat := tzAux 16 n

/-- The scan loop at the bottom of `enter` (`utils.rs` lines 74-82): while
`base > 0`, return the current pair index once the two low bits are `0b11`,
otherwise shift the base right by two and advance the pair index.  The loop is
fuel-indexed to keep the recursion structural; `enter` always calls it with
fuel 8, which is exhaustive for a 16-bit base (8 pairs), so the fuel never
runs out before the `base > 0` guard fails. -/
def enterLoop : Nat → Nat → Nat → Option Nat
  | 0, _, _ => none
  | fuel + 1, base, pos =>
    if 0 < base then
      if base % 4 = 3 then some pos
      else enterLoop fuel (base / 4) (pos + 1)
    else none

/-- The common tail of `enter` (`utils.rs` lines 54-84): compute the starting
pair position from the trailing zeros of the base word, early-reject when the
first set bit is beyond bit 14, then run the pair scan loop. -/
def coreScan (base : Nat) : Option Nat :=
  let val := trailingZeros16 (base &&& PUT_MASK)
  if val > 14 then none
  else if val % 2 = 1 then enterLoop 8 (base / 2 ^ (val + 1)) ((val + 1) / 2)
  else enterLoop 8 (base / 2 ^ val) (val / 2)

/-- `enter` from `utils.rs`: find the first slot whose two state bits XOR-ed
with the get/put mask read `0b11`.  `Ok pos` is `some pos`, `Err ()` is
`none`. -/
def enter (src : Nat) (get : Bool) : Option Nat :=
  if get then
    if src = 0 then none else coreScan (src ^^^ GET_MASK)
  else
    if src = FULL_FLAG then none else coreScan (src ^^^ PUT_MASK)

/-- Spec-side reading of a state word: slot `p` is a candidate for the given
operation when its presence bit (bit `2p`) is 1 for a get (0 for a put) and
its lock bit (bit `2p+1`) is 0. -/
def slotMatch (s : Nat) (get : Bool) (p : Nat) : Bool :=
  if get then s.testBit (2 * p) && !(s.testBit (2 * p + 1))
  else !(s.testBit (2 * p)) && !(s.testBit (2 * p + 1))

/-- Spec-side `locate`: the smallest slot index in `[0,8)` matching the
request, scanning from the least significant pair upward. -/
def locateSpec (s : Nat) (get : Bool) : Option Nat :=
  (List.range 8).find? (slotMatch s get)

/-- A pair of the base word reads `0b11` at pair index `j`. -/
def pairHit (base j : Nat) : Bool := decide (base / 4 ^ j % 4 = 3)

theorem four_pow (k : Nat) : 4 ^ k = 2 ^ (2 * k) := by
  rw [Nat.pow_mul]

theorem pair_decomp (n k : Nat) :
    n / 2 ^ (2 * k) % 4 = n / 2 ^ (2 * k) % 2 + 2 * (n / 2 ^ (2 * k + 1) % 2) := by
  have h : n / 2 ^ (2 * k + 1) = n / 2 ^ (2 * k) / 2 := by
    rw [Nat.pow_succ, ← Nat.div_div_eq_div_mul]
  rw [h]
  omega

theorem pairHit_testBit (base p : Nat) :
    pairHit base p = (base.testBit (2 * p) && base.testBit (2 * p + 1)) := by
  rw [pairHit, four_pow, pair_decomp, Nat.testBit_to_div_mod, Nat.testBit_to_div_mod]
  have hiff : (base / 2 ^ (2 * p) % 2 + 2 * (base / 2 ^ (2 * p + 1) % 2) = 3)
      ↔ (base / 2 ^ (2 * p) % 2 = 1 ∧ base / 2 ^ (2 * p + 1) % 2 = 1) := by omega
  simp only [hiff, Bool.decide_and]

theorem find?_congr_on {α : Type} {p q : α → Bool}
    (l : List α) (h : ∀ x ∈ l, p x = q x) : l.find? p = l.find? q := by
  induction l with
  | nil => rfl
  | cons a t ih =>
    rw [List.find?_cons, List.find?_cons, h a (List.mem_cons_self a t)]
    cases hq : q a
    · exact ih (fun x hx => h x (List.mem_cons_of_mem a hx))
    · rfl

theorem find?_range_ext (p : Nat → Bool) :
    ∀ k n, (∀ i, n ≤ i → i < n + k → p i = false) →
    (List.range (n + k)).find? p = (List.range n).find? p := by
  intro k
  induction k with
  | zero => intro n _; rfl
  | succ k ih =>
    intro n h
    rw [show n + (k + 1) = (n + k) + 1 by omega, List.range_succ, List.find?_append]
    rw [ih n (fun i h1 h2 => h i h1 (by omega))]
    have hsingle : ([n + k].find? p) = none := by
      rw [List.find?_cons, h (n + k) (by omega) (by omega)]
      rfl
    rw [hsingle, Option.or_none]

theorem find?_range_shift :
    ∀ m (p : Nat → Bool) n, m ≤ n → (∀ i, i < m → p i = false) →
    (List.range n).find? p
      = ((List.range (n - m)).find? (fun j => p (m + j))).map (fun j => m + j) := by
  intro m
  induction m with
  | zero =>
    intro p n _ _
    simp only [Nat.sub_zero, Nat.zero_add]
    cases hf : (List.range n).find? p with
    | none => rfl
    | some a => rfl
  | succ m ih =>
    intro p n hmn h
    obtain ⟨q, rfl⟩ : ∃ q, n = q + 1 := ⟨n - 1, by omega⟩
    rw [List.range_succ_eq_map,
      List.find?_cons_of_neg _ (by rw [h 0 (by omega)]; exact Bool.false_ne_true),
      List.find?_map]
    rw [ih (p ∘ Nat.succ) q (by omega) (fun i hi => h (i + 1) (by omega))]
    rw [show q + 1 - (m + 1) = q - m by omega]
    rw [find?_congr_on (List.range (q - m))
      (show ∀ x ∈ List.range (q - m),
          (fun j => (p ∘ Nat.succ) (m + j)) x = (fun j => p (m + 1 + j)) x by
        intro x _
        show p (m + x).succ = p (m + 1 + x)
        rw [show (m + x).succ = m + 1 + x by omega])]
    cases hf : (List.range (q - m)).find? (fun j => p (m + 1 + j)) with
    | none => rfl
    | some a =>
      show some ((m + a).succ) = some (m + 1 + a)
      rw [show (m + a).succ = m + 1 + a by omega]

theorem enterLoop_eq :
    ∀ fuel base pos, base < 4 ^ fuel →
    enterLoop fuel base pos
      = ((List.range fuel).find? (pairHit base)).map (fun j => pos + j) := by
  intro fuel
  induction fuel with
  | zero =>
    intro base pos hb
    rfl
  | succ fuel ih =>
    intro base pos hb
    rw [enterLoop]
    by_cases h0 : 0 < base
    · rw [if_pos h0]
      by_cases h3 : base % 4 = 3
      · rw [if_pos h3]
        rw [List.range_succ_eq_map, List.find?_cons_of_pos]
        · rfl
        · simp [pairHit, h3]
      · rw [if_neg h3]
        have hdiv : base / 4 < 4 ^ fuel := by
          rw [Nat.div_lt_iff_lt_mul (by omega)]
          rw [Nat.pow_succ] at hb
          exact hb
        rw [ih (base / 4) (pos + 1) hdiv]
        rw [List.range_succ_eq_map,
          List.find?_cons_of_neg _ (by
            rw [pairHit]
            simp only [pow_zero, Nat.div_one]
            simp [h3]),
          List.find?_map]
        rw [find?_congr_on (List.range fuel)
          (show ∀ x ∈ List.range fuel, (pairHit base ∘ Nat.succ) x = pairHit (base / 4) x by
            intro x _
            show pairHit base (x + 1) = pairHit (base / 4) x
            rw [pairHit, pairHit, Nat.div_div_eq_div_mul, ← Nat.pow_succ'])]
        cases hf : (List.range fuel).find? (pairHit (base / 4)) with
        | none => rfl
        | some a =>
          show some (pos + 1 + a) = some (pos + a.succ)
          rw [show pos + 1 + a = pos + a.succ by omega]
    · rw [if_neg h0]
      have hb0 : base = 0 := by omega
      subst hb0
      symm
      rw [Option.map_eq_none']
      rw [List.find?_eq_none]
      intro x _
      rw [pairHit]
      simp

theorem tzAux_le : ∀ fuel n, tzAux fuel n ≤ fuel := by
  intro fuel
  induction fuel with
  | zero => intro n; exact Nat.le_refl 0
  | succ fuel ih =>
    intro n
    rw [tzAux]
    by_cases h : n % 2 = 1
    · rw [if_pos h]; omega
    · rw [if_neg h]
      have := ih (n / 2)
      omega

theorem tzAux_below : ∀ fuel n k, k < tzAux fuel n → n / 2 ^ k % 2 = 0 := by
  intro fuel
  induction fuel with
  | zero => intro n k h; rw [tzAux] at h; omega
  | succ fuel ih =>
    intro n k h
    rw [tzAux] at h
    by_cases h1 : n % 2 = 1
    · rw [if_pos h1] at h; omega
    · rw [if_neg h1] at h
      cases k with
      | zero =>
        simpa using (by omega : n % 2 = 0)
      | succ j =>
        have := ih (n / 2) j (by omega)
        rw [Nat.pow_succ', ← Nat.div_div_eq_div_mul]
        exact this

theorem div_two_pow_succ (n t : Nat) : n / 2 ^ (1 + t) = n / 2 / 2 ^ t := by
  rw [Nat.pow_add, Nat.pow_one, ← Nat.div_div_eq_div_mul]

theorem tzAux_at : ∀ fuel n, tzAux fuel n < fuel → n / 2 ^ (tzAux fuel n) % 2 = 1 := by
  intro fuel
  induction fuel with
  | zero => intro n h; omega
  | succ fuel ih =>
    intro n h
    rw [tzAux] at h ⊢
    by_cases h1 : n % 2 = 1
    · rw [if_pos h1]
      simpa using h1
    · rw [if_neg h1]
      rw [if_neg h1] at h
      have := ih (n / 2) (by omega)
      rw [div_two_pow_succ]
      exact this

theorem tzAux_lt : ∀ fuel n, n ≠ 0 → n < 2 ^ fuel → tzAux fuel n < fuel := by
  intro fuel
  induction fuel with
  | zero =>
    intro n h0 h1
    simp only [pow_zero] at h1
    omega
  | succ fuel ih =>
    intro n h0 h1
    rw [tzAux]
    by_cases h2 : n % 2 = 1
    · rw [if_pos h2]; omega
    · rw [if_neg h2]
      have hn2 : n / 2 ≠ 0 := by omega
      have hlt : n / 2 < 2 ^ fuel := by
        rw [Nat.pow_succ] at h1
        omega
      have := ih (n / 2) hn2 hlt
      omega

/-- Scanning the shifted base from pair position `m` agrees with the full
scan, provided no pair below `m` is a hit. -/
theorem scan_from (base m : Nat) (hb : base < 65536) (hm : m ≤ 7)
    (hskip : ∀ p, p < m → pairHit base p = false) :
    enterLoop 8 (base / 2 ^ (2 * m)) m = (List.range 8).find? (pairHit base) := by
  have hb4 : base < 4 ^ 8 := by norm_num at hb ⊢; omega
  have hsmall : base / 2 ^ (2 * m) < 4 ^ 8 :=
    Nat.lt_of_le_of_lt (Nat.div_le_self _ _) hb4
  rw [enterLoop_eq 8 _ m hsmall]
  have hshiftpred : ∀ j, pairHit base (m + j) = pairHit (base / 2 ^ (2 * m)) j := by
    intro j
    rw [pairHit, pairHit, Nat.div_div_eq_div_mul, four_pow, four_pow,
      ← Nat.pow_add, ← Nat.mul_add]
  have hext : (List.range ((8 - m) + m)).find? (pairHit (base / 2 ^ (2 * m)))
      = (List.range (8 - m)).find? (pairHit (base / 2 ^ (2 * m))) := by
    apply find?_range_ext
    intro i hi1 hi2
    rw [← hshiftpred i, pairHit]
    have hpowle : (4 : Nat) ^ 8 ≤ 4 ^ (m + i) := Nat.pow_le_pow_right (by omega) (by omega)
    have hzero : base / 4 ^ (m + i) = 0 := Nat.div_eq_of_lt (by omega)
    rw [hzero]
    simp
  rw [show (8 : Nat) - m + m = 8 by omega] at hext
  rw [hext, find?_range_shift m (pairHit base) 8 (by omega) hskip]
  rw [find?_congr_on (List.range (8 - m))
    (show ∀ x ∈ List.range (8 - m),
        (fun j => pairHit base (m + j)) x = pairHit (base / 2 ^ (2 * m)) x by
      intro x _
      exact hshiftpred x)]

/-- The common tail of `enter` computes the first `0b11` pair of the base. -/
theorem coreScan_eq (base : Nat) (hb : base < 65536) :
    coreScan base = (List.range 8).find? (pairHit base) := by
  have hland : base &&& PUT_MASK = base := by
    have hmask : PUT_MASK = 2 ^ 16 - 1 := by norm_num [PUT_MASK]
    apply Nat.eq_of_testBit_eq
    intro i
    rw [Nat.testBit_and, hmask, Nat.testBit_two_pow_sub_one]
    by_cases hi : i < 16
    · simp [hi]
    · have hpowle : (2 : Nat) ^ 16 ≤ 2 ^ i := Nat.pow_le_pow_right (by omega) (by omega)
      have hfb : base.testBit i = false := Nat.testBit_eq_false_of_lt (by omega)
      simp [hfb]
  rw [coreScan, hland]
  by_cases hbase : base = 0
  · subst hbase
    rw [show trailingZeros16 0 = 16 from rfl, if_pos (by omega)]
    symm
    rw [List.find?_eq_none]
    intro x _
    rw [pairHit]
    simp
  · have ht16 : trailingZeros16 base < 16 := tzAux_lt 16 base hbase hb
    have htbit : base / 2 ^ (trailingZeros16 base) % 2 = 1 := tzAux_at 16 base ht16
    have hbelow : ∀ k, k < trailingZeros16 base → base / 2 ^ k % 2 = 0 :=
      fun k hk => tzAux_below 16 base k hk
    by_cases h15 : trailingZeros16 base > 14
    · have ht : trailingZeros16 base = 15 := by omega
      rw [if_pos h15]
      symm
      rw [List.find?_eq_none]
      intro x hx
      rw [List.mem_range] at hx
      intro hhit
      rw [pairHit, decide_eq_true_eq, four_pow, pair_decomp] at hhit
      have hlow := hbelow (2 * x) (by omega)
      omega
    · rw [if_neg h15]
      by_cases hodd : trailingZeros16 base % 2 = 1
      · rw [if_pos hodd]
        have heven : trailingZeros16 base + 1 = 2 * ((trailingZeros16 base + 1) / 2) := by
          omega
        rw [show base / 2 ^ (trailingZeros16 base + 1)
            = base / 2 ^ (2 * ((trailingZeros16 base + 1) / 2)) by rw [← heven]]
        apply scan_from base _ hb (by omega)
        intro p hp
        rw [pairHit]
        have hlow := hbelow (2 * p) (by omega)
        rw [four_pow, pair_decomp]
        simp only [decide_eq_false_iff_not]
        omega
      · rw [if_neg hodd]
        have heven : trailingZeros16 base = 2 * (trailingZeros16 base / 2) := by omega
        rw [show base / 2 ^ (trailingZeros16 base)
            = base / 2 ^ (2 * (trailingZeros16 base / 2)) by rw [← heven]]
        apply scan_from base _ hb (by omega)
        intro p hp
        rw [pairHit]
        have hlow0 := hbelow (2 * p) (by omega)
        have hlow1 := hbelow (2 * p + 1) (by omega)
        rw [four_pow, pair_decomp]
        simp only [decide_eq_false_iff_not]
        omega

theorem locateSpec_get_eq (s : Nat) :
    locateSpec s true = (List.range 8).find? (pairHit (s ^^^ GET_MASK)) := by
  rw [locateSpec]
  apply find?_congr_on
  intro x hx
  rw [List.mem_range] at hx
  rw [pairHit_testBit, Nat.testBit_xor, Nat.testBit_xor]
  have h1 : GET_MASK.testBit (2 * x) = false := by
    interval_cases x <;> decide
  have h2 : GET_MASK.testBit (2 * x + 1) = true := by
    interval_cases x <;> decide
  rw [h1, h2, slotMatch]
  simp

theorem locateSpec_put_eq (s : Nat) :
    locateSpec s false = (List.range 8).find? (pairHit (s ^^^ PUT_MASK)) := by
  rw [locateSpec]
  apply find?_congr_on
  intro x hx
  rw [List.mem_range] at hx
  rw [pairHit_testBit, Nat.testBit_xor, Nat.testBit_xor]
  have h1 : PUT_MASK.testBit (2 * x) = true := by
    interval_cases x <;> decide
  have h2 : PUT_MASK.testBit (2 * x + 1) = true := by
    interval_cases x <;> decide
  rw [h1, h2, slotMatch]
  simp

theorem xor_lt_65536 {a b : Nat} (ha : a < 65536) (hb : b < 65536) :
    a ^^^ b < 65536 := by
  have : a ^^^ b < 2 ^ 16 := Nat.xor_lt_two_pow (by norm_num at ha ⊢; omega)
    (by norm_num at hb ⊢; omega)
  norm_num at this ⊢
  omega

/-- `enter` agrees with the spec-side `locate` on every 16-bit state word and
both operation kinds. -/
theorem enter_eq_locateSpec (s : Nat) (hs : s < 65536) (g : Bool) :
    enter s g = locateSpec s g := by
  cases g
  · rw [enter, if_neg (by exact Bool.false_ne_true)]
    by_cases hfull : s = FULL_FLAG
    · subst hfull
      rw [if_pos rfl]
      decide
    · rw [if_neg hfull]
      rw [coreScan_eq _ (xor_lt_65536 hs (by norm_num [PUT_MASK]))]
      rw [locateSpec_put_eq]
  · rw [enter, if_pos rfl]
    by_cases h0 : s = 0
    · subst h0
      rw [if_pos rfl]
      decide
    · rw [if_neg h0]
      rw [coreScan_eq _ (xor_lt_65536 hs (by norm_num [GET_MASK]))]
      rw [locateSpec_get_eq]

/-- C1: on every 16-bit bucket state word, `enter` with `get = true` returns
the smallest slot index whose presence bit (bit `2p`) is 1 and lock bit
(bit `2p+1`) is 0, `enter` with `get = false` the smallest slot with both bits
0 (this is what `locateSpec` scans for, from the LSB upward), and `none` when
no such slot exists; in particular the spec's truth table holds. -/
theorem C1_enter_first_free_slot :
    (∀ s : Nat, s < 65536 → ∀ g : Bool, enter s g = locateSpec s g)
    ∧ enter 0b0101010001010100 false = some 0
    ∧ enter 0b0101010001010100 true = some 1
    ∧ enter 0b0101010001010101 false = some 4
    ∧ enter 0b0101010001010101 true = some 0
    ∧ enter 0b0101010001010111 false = some 4
    ∧ enter 0b0101010001010111 true = some 1
    ∧ enter 0b0101010001011011 false = some 4
    ∧ enter 0b0101010001011011 true = some 2
    ∧ enter 0b0010000000000000 false = some 0
    ∧ enter 0b0010000000000000 true = none
    ∧ enter 0b0111010101010111 false = none
    ∧ enter 0b0111010101010111 true = some 1 := by
  refine ⟨fun s hs g => enter_eq_locateSpec s hs g, ?_⟩
  decide

/-- Witness for C1 at the concrete word `0b0101010001010100`. -/
theorem C1_enter_first_free_slot_witness :
    enter 0b0101010001010100 true = locateSpec 0b0101010001010100 true :=
  C1_enter_first_free_slot.1 0b0101010001010100 (by decide) true

/-! ### `Bucket2::leave` (bucket.rs lines 250-261) -/

/-- The `leave` loop: each iteration `fetch_xor`s the two-bit pair
`0b11 << (2*pos)` into the state word and stops once the pre-XOR value had the
lock bit `0b10 << (2*pos)` set.  The model is fuel-indexed (the sequential
loop needs at most two rounds); the result carries the final word and the
number of XOR rounds executed, `none` meaning the fuel ran out before the
loop exited. -/
def leaveLoop (pos : Nat) : Nat → Nat → Nat → Option (Nat × Nat)
  | 0, _, _ => none
  | fuel + 1, s, rounds =>
    let old := s
    let s1 := s ^^^ (3 <<< (2 * pos))
    if old &&& (2 <<< (2 * pos)) = 2 <<< (2 * pos) then some (s1, rounds + 1)
    else leaveLoop pos fuel s1 (rounds + 1)

/-- The state word after `leave(pos)` returns (two rounds of fuel always
suffice sequentially; the fallback branch is unreachable). -/
def leaveWord (s pos : Nat) : Nat :=
  match leaveLoop pos 2 s 0 with
  | some (s1, _) => s1
  | none => s

theorem lock_mask_eq (p : Nat) : (2 : Nat) <<< (2 * p) = 2 ^ (2 * p + 1) := by
  rw [Nat.shiftLeft_eq, Nat.pow_succ, Nat.mul_comm]

theorem testBit_three (k : Nat) : (3 : Nat).testBit k = decide (k < 2) := by
  rw [show (3 : Nat) = 2 ^ 2 - 1 by norm_num, Nat.testBit_two_pow_sub_one]

theorem land_lock_of_testBit {s p : Nat} (h : s.testBit (2 * p + 1) = true) :
    s &&& 2 <<< (2 * p) = 2 <<< (2 * p) := by
  rw [lock_mask_eq, Nat.and_two_pow, h]
  simp

theorem land_lock_of_not_testBit {s p : Nat} (h : s.testBit (2 * p + 1) = false) :
    ¬(s &&& 2 <<< (2 * p) = 2 <<< (2 * p)) := by
  rw [lock_mask_eq, Nat.and_two_pow, h]
  intro hcontra
  have hpos : 0 < 2 ^ (2 * p + 1) := Nat.pos_pow_of_pos _ (by omega)
  simp only [Bool.toNat_false, Nat.zero_mul] at hcontra
  omega

theorem xor_pair_testBit (s p q : Nat) :
    (s ^^^ (3 <<< (2 * p))).testBit q
      = ((s.testBit q).xor ((decide (2 * p ≤ q)) && (3 : Nat).testBit (q - 2 * p))) := by
  rw [Nat.testBit_xor, Nat.testBit_shiftLeft]

theorem xor_pair_lock (s p : Nat) :
    (s ^^^ (3 <<< (2 * p))).testBit (2 * p + 1) = !(s.testBit (2 * p + 1)) := by
  rw [xor_pair_testBit]
  have h1 : decide (2 * p ≤ 2 * p + 1) = true := by simp
  have h2 : (3 : Nat).testBit (2 * p + 1 - 2 * p) = true := by
    rw [testBit_three]
    simp [show 2 * p + 1 - 2 * p = 1 by omega]
  rw [h1, h2]
  cases s.testBit (2 * p + 1) <;> rfl

theorem xor_pair_presence (s p : Nat) :
    (s ^^^ (3 <<< (2 * p))).testBit (2 * p) = !(s.testBit (2 * p)) := by
  rw [xor_pair_testBit]
  have h1 : decide (2 * p ≤ 2 * p) = true := by simp
  have h2 : (3 : Nat).testBit (2 * p - 2 * p) = true := by
    rw [testBit_three]
    simp [show 2 * p - 2 * p = 0 by omega]
  rw [h1, h2]
  cases s.testBit (2 * p) <;> rfl

theorem xor_pair_other (s p q : Nat) (hq1 : q ≠ 2 * p) (hq2 : q ≠ 2 * p + 1) :
    (s ^^^ (3 <<< (2 * p))).testBit q = s.testBit q := by
  rw [xor_pair_testBit]
  by_cases hle : 2 * p ≤ q
  · have h2 : (3 : Nat).testBit (q - 2 * p) = false := by
      rw [testBit_three]
      simp only [decide_eq_false_iff_not]
      omega
    rw [h2]
    cases s.testBit q <;> simp [hle]
  · have h1 : decide (2 * p ≤ q) = false := by
      simp only [decide_eq_false_iff_not]
      omega
    rw [h1]
    cases s.testBit q <;> rfl

theorem leaveLoop_lock_set {s : Nat} (p fuel rounds : Nat)
    (h : s.testBit (2 * p + 1) = true) :
    leaveLoop p (fuel + 1) s rounds = some (s ^^^ (3 <<< (2 * p)), rounds + 1) := by
  rw [leaveLoop]
  simp only [if_pos (land_lock_of_testBit h)]

theorem leaveLoop_lock_clear {s : Nat} (p : Nat)
    (h : s.testBit (2 * p + 1) = false) :
    leaveLoop p 1 s 0 = none ∧ leaveLoop p 2 s 0 = some (s, 2) := by
  constructor
  · rw [leaveLoop]
    simp only [if_neg (land_lock_of_not_testBit h)]
    rfl
  · rw [leaveLoop]
    simp only [if_neg (land_lock_of_not_testBit h)]
    have hset : (s ^^^ (3 <<< (2 * p))).testBit (2 * p + 1) = true := by
      rw [xor_pair_lock, h]
      rfl
    rw [leaveLoop_lock_set p 0 1 hset]
    rw [Nat.xor_cancel_right]

theorem leaveWord_lock_set {s : Nat} (p : Nat) (h : s.testBit (2 * p + 1) = true) :
    leaveWord s p = s ^^^ (3 <<< (2 * p)) := by
  rw [leaveWord, leaveLoop_lock_set p 1 0 h]

theorem leaveWord_lock_clear {s : Nat} (p : Nat) (h : s.testBit (2 * p + 1) = false) :
    leaveWord s p = s := by
  rw [leaveWord, (leaveLoop_lock_clear p h).2]

/-- C10: `Bucket2::leave` is defensive: if the lock bit of slot `p` is clear,
the loop does not exit after one XOR round but exits after exactly two, with
the state word restored bit-for-bit; if the lock bit is set, it exits after
exactly one XOR round, clearing the lock bit, flipping the presence bit of
`p`, and leaving every other bit of the 16-bit word unchanged. -/
theorem C10_leave_two_round_safety (s p : Nat) (hs : s < 65536) (hp : p < 8) :
    (s.testBit (2 * p + 1) = false →
      leaveLoop p 1 s 0 = none ∧ leaveLoop p 2 s 0 = some (s, 2))
    ∧ (s.testBit (2 * p + 1) = true →
      leaveLoop p 1 s 0 = some (s ^^^ (3 <<< (2 * p)), 1)
      ∧ (s ^^^ (3 <<< (2 * p))).testBit (2 * p + 1) = false
      ∧ (s ^^^ (3 <<< (2 * p))).testBit (2 * p) = !(s.testBit (2 * p))
      ∧ (∀ q, q ≠ 2 * p → q ≠ 2 * p + 1 →
          (s ^^^ (3 <<< (2 * p))).testBit q = s.testBit q)) := by
  constructor
  · intro h
    exact leaveLoop_lock_clear p h
  · intro h
    refine ⟨leaveLoop_lock_set p 0 0 h, ?_, xor_pair_presence s p, ?_⟩
    · rw [xor_pair_lock, h]
      rfl
    · intro q hq1 hq2
      exact xor_pair_other s p q hq1 hq2

/-- Witness for C10 at the concrete word `0b1100` (slot 1 present and locked)
and slot `p = 1`. -/
theorem C10_leave_two_round_safety_witness :
    leaveLoop 1 1 0b1100 0 = some (0b1100 ^^^ (3 <<< 2), 1) :=
  ((C10_leave_two_round_safety 0b1100 1 (by decide) (by decide)).2 (by decide)).1

/-! ### `Bucket2` (bucket.rs lines 151-319)

A bucket owns eight heap slots (raw pointers in the source, null meaning
empty — here a length-8 list of `Option α`), an atomic occupancy hint `len`
(a wrapping `usize`), and the 16-bit atomic state word `bitmap`. -/

structure Bucket2 (α : Type) : Type where
  slot : List (Option α)
  len : Nat
  bitmap : Nat

/-- `Bucket2::new`: slots start empty; with a filler every slot is populated
and the corresponding presence bit is OR-ed into the bitmap; `len` starts at
`SLOT_CAP` either way. -/
def bucket2New {α : Type} (filler : Option α) : Bucket2 α :=
  match filler with
  | some v =>
      { slot := (List.range SLOT_CAP).map (fun _ => some v)
        len := SLOT_CAP
        bitmap := (List.range SLOT_CAP).foldl (fun acc i => acc ||| (1 <<< (2 * i))) 0 }
  | none =>
      { slot := (List.range SLOT_CAP).map (fun _ => (none : Option α))
        len := SLOT_CAP
        bitmap := 0 }

/-- `Bucket2::size_hint`. -/
def sizeHint {α : Type} (b : Bucket2 α) : Nat := b.len % (SLOT_CAP + 1)

/-- `Bucket2::access_failure`: revert the hint pre-registration. -/
def accessFailure {α : Type} (b : Bucket2 α) (get : Bool) :
    Except Unit Nat × Bucket2 α :=
  if get then (Except.error (), { b with len := (b.len + 1) % USIZE })
  else (Except.error (), { b with len := (b.len + USIZE - 1) % USIZE })

/-- The retry loop inside `Bucket2::access`: up to `TRIALS_COUNT` rounds of
`enter` + `fetch_or` of the located lock bit; the round succeeds when the
previously observed lock bit was clear. -/
def accessLoop {α : Type} (b : Bucket2 α) (get : Bool) :
    Nat → Except Unit Nat × Bucket2 α
  | 0 => accessFailure b get
  | trials + 1 =>
    match enter b.bitmap get with
    | none => accessLoop b get trials
    | some pos =>
      if b.bitmap &&& (2 <<< (2 * pos)) = 0 then
        (Except.ok pos, { b with bitmap := b.bitmap ||| (2 <<< (2 * pos)) })
      else accessLoop { b with bitmap := b.bitmap ||| (2 <<< (2 * pos)) } get trials

/-- `Bucket2::access`: pre-register the intention on the occupancy hint
(`fetch_sub` on get, `fetch_add` on put, wrapping; `curr_len` is the
pre-update hint), reject when the previous hint was out of window, then run
the retry loop. -/
def access {α : Type} (b : Bucket2 α) (get : Bool) : Except Unit Nat × Bucket2 α :=
  if b.len > SLOT_CAP ∨ (get = true ∧ b.len = 0) then
    accessFailure
      { b with len := if get then (b.len + USIZE - 1) % USIZE else (b.len + 1) % USIZE }
      get
  else
    accessLoop
      { b with len := if get then (b.len + USIZE - 1) % USIZE else (b.len + 1) % USIZE }
      get TRIALS_COUNT

/-- `Bucket2::leave` applied to the bucket state. -/
def leaveB {α : Type} (b : Bucket2 α) (pos : Nat) : Bucket2 α :=
  { b with bitmap := leaveWord b.bitmap pos }

/-- `Bucket2::checkout`: error when the position is out of bounds or the slot
is empty; otherwise detach the value, leaving the slot empty. -/
def checkout {α : Type} (b : Bucket2 α) (pos : Nat) :
    Except Unit (α × Bucket2 α) :=
  if pos ≥ SLOT_CAP then Except.error ()
  else
    match b.slot.getD pos none with
    | none => Except.error ()
    | some v => Except.ok (v, { b with slot := b.slot.set pos none })

/-- The reset hook applied before re-installing a value. -/
def applyReset {α : Type} (reset : Option (α → α)) (v : α) : α :=
  match reset with
  | some f => f v
  | none => v

/-- `Bucket2::release`: no-op (dropping the value) when the position is out of
bounds or the slot is occupied; otherwise reset and install the value. -/
def release {α : Type} (b : Bucket2 α) (pos : Nat) (v : α) (reset : Option (α → α)) :
    Bucket2 α :=
  if pos ≥ SLOT_CAP ∨ (b.slot.getD pos none).isSome then b
  else { b with slot := b.slot.set pos (some (applyReset reset v)) }

/-- C8: `checkout` and `release` are total and defensive.  In-bounds
`checkout` of a non-empty slot detaches exactly that value and empties the
slot; out-of-bounds or empty-slot `checkout` returns an error without
touching any slot.  In-bounds `release` into an empty slot applies the reset
hook (when set) and installs the value there; out-of-bounds or occupied
`release` drops the incoming value and leaves every slot unchanged. -/
theorem C8_checkout_release_defensive {α : Type} (b : Bucket2 α) (pos : Nat)
    (v : α) (reset : Option (α → α)) :
    (∀ w, pos < SLOT_CAP → b.slot.getD pos none = some w →
      checkout b pos = Except.ok (w, { b with slot := b.slot.set pos none }))
    ∧ (pos ≥ SLOT_CAP ∨ b.slot.getD pos none = none →
      checkout b pos = Except.error ())
    ∧ (pos < SLOT_CAP → b.slot.getD pos none = none →
      release b pos v reset = { b with slot := b.slot.set pos (some (applyReset reset v)) })
    ∧ (pos ≥ SLOT_CAP ∨ (b.slot.getD pos none).isSome →
      release b pos v reset = b) := by
  refine ⟨?_, ?_, ?_, ?_⟩
  · intro w hlt hsome
    rw [checkout, if_neg (by omega), hsome]
  · intro h
    rcases h with h | h
    · rw [checkout, if_pos h]
    · rw [checkout]
      by_cases hoob : pos ≥ SLOT_CAP
      · rw [if_pos hoob]
      · rw [if_neg hoob, h]
  · intro hlt hempty
    rw [release, if_neg]
    intro h
    rcases h with h | h
    · omega
    · rw [hempty] at h
      simp at h
  · intro h
    rw [release, if_pos h]

/-- Witness for C8 on a concrete one-element bucket. -/
theorem C8_checkout_release_defensive_witness :
    checkout (bucket2New (some 7)) 3
      = Except.ok (7, { bucket2New (some 7) with
          slot := (bucket2New (some (7 : Nat))).slot.set 3 none }) :=
  (C8_checkout_release_defensive (bucket2New (some 7)) 3 0 none).1 7
    (by decide) (by rfl)

/-! ### Bucket invariant (C2)

Under the access protocol a quiescent bucket's bitmap has all lock bits
clear and its presence bits spread an 8-bit occupancy pattern `occ` over the
even bit positions; the hint equals the popcount of `occ`. -/

/-- Spread an 8-bit occupancy pattern onto the even (presence) bits of a
16-bit state word. -/
def spread (occ : Nat) : Nat :=
  (List.range 8).foldl (fun acc i => acc + occ / 2 ^ i % 2 * 4 ^ i) 0

/-- 8-bit popcount. -/
def pc8 (occ : Nat) : Nat :=
  (List.range 8).foldl (fun acc i => acc + occ / 2 ^ i % 2) 0

/-- Popcount of the presence bits (bits `2p`) of a 16-bit state word. -/
def presenceCount (s : Nat) : Nat :=
  (List.range 8).foldl (fun acc p => acc + s / 2 ^ (2 * p) % 2) 0

set_option maxRecDepth 4096

theorem pc8_le_8 : ∀ occ : Fin 256, pc8 occ.val ≤ 8 := by decide

theorem pc8_zero_iff : ∀ occ : Fin 256, (pc8 occ.val = 0 ↔ occ.val = 0) := by decide

theorem presenceCount_spread :
    ∀ occ : Fin 256, presenceCount (spread occ.val) = pc8 occ.val := by decide

theorem spread_lock_clear :
    ∀ occ : Fin 256, ∀ p : Fin 8, (spread occ.val).testBit (2 * p.val + 1) = false := by
  decide

theorem enter_spread_get : ∀ occ : Fin 256, occ.val ≠ 0 →
    trailingZeros16 occ.val < 8
    ∧ enter (spread occ.val) true = some (trailingZeros16 occ.val)
    ∧ occ.val / 2 ^ (trailingZeros16 occ.val) % 2 = 1
    ∧ spread occ.val &&& (2 <<< (2 * trailingZeros16 occ.val)) = 0
    ∧ leaveWord (spread occ.val ||| (2 <<< (2 * trailingZeros16 occ.val)))
        (trailingZeros16 occ.val)
      = spread (occ.val - 2 ^ (trailingZeros16 occ.val))
    ∧ pc8 (occ.val - 2 ^ (trailingZeros16 occ.val)) + 1 = pc8 occ.val
    ∧ (occ.val - 2 ^ (trailingZeros16 occ.val)) / 2 ^ (trailingZeros16 occ.val) % 2 = 0
    ∧ ∀ q : Fin 8, q.val ≠ trailingZeros16 occ.val →
        (occ.val - 2 ^ (trailingZeros16 occ.val)) / 2 ^ q.val % 2
          = occ.val / 2 ^ q.val % 2 := by
  decide

theorem enter_spread_put : ∀ occ : Fin 256, occ.val ≠ 255 →
    trailingZeros16 (occ.val ^^^ 255) < 8
    ∧ enter (spread occ.val) false = some (trailingZeros16 (occ.val ^^^ 255))
    ∧ occ.val / 2 ^ (trailingZeros16 (occ.val ^^^ 255)) % 2 = 0
    ∧ spread occ.val &&& (2 <<< (2 * trailingZeros16 (occ.val ^^^ 255))) = 0
    ∧ leaveWord (spread occ.val ||| (2 <<< (2 * trailingZeros16 (occ.val ^^^ 255))))
        (trailingZeros16 (occ.val ^^^ 255))
      = spread (occ.val + 2 ^ (trailingZeros16 (occ.val ^^^ 255)))
    ∧ pc8 (occ.val + 2 ^ (trailingZeros16 (occ.val ^^^ 255))) = pc8 occ.val + 1
    ∧ (occ.val + 2 ^ (trailingZeros16 (occ.val ^^^ 255)))
        / 2 ^ (trailingZeros16 (occ.val ^^^ 255)) % 2 = 1
    ∧ occ.val + 2 ^ (trailingZeros16 (occ.val ^^^ 255)) < 256
    ∧ ∀ q : Fin 8, q.val ≠ trailingZeros16 (occ.val ^^^ 255) →
        (occ.val + 2 ^ (trailingZeros16 (occ.val ^^^ 255))) / 2 ^ q.val % 2
          = occ.val / 2 ^ q.val % 2 := by
  decide

theorem enter_spread_put_full : enter (spread 255) false = none := by decide

theorem enter_spread_get_zero : enter (spread 0) true = none := by decide

theorem pc8_le_8n (occ : Nat) (hocc : occ < 256) : pc8 occ ≤ 8 :=
  pc8_le_8 ⟨occ, hocc⟩

theorem pc8_zero_iffn (occ : Nat) (hocc : occ < 256) : pc8 occ = 0 ↔ occ = 0 :=
  pc8_zero_iff ⟨occ, hocc⟩

theorem presenceCount_spreadn (occ : Nat) (hocc : occ < 256) :
    presenceCount (spread occ) = pc8 occ :=
  presenceCount_spread ⟨occ, hocc⟩

theorem spread_lock_clearn (occ : Nat) (hocc : occ < 256) (p : Nat) (hp : p < 8) :
    (spread occ).testBit (2 * p + 1) = false :=
  spread_lock_clear ⟨occ, hocc⟩ ⟨p, hp⟩

theorem enter_spread_getn (occ : Nat) (hocc : occ < 256) (hnz : occ ≠ 0) :
    trailingZeros16 occ < 8
    ∧ enter (spread occ) true = some (trailingZeros16 occ)
    ∧ occ / 2 ^ (trailingZeros16 occ) % 2 = 1
    ∧ spread occ &&& (2 <<< (2 * trailingZeros16 occ)) = 0
    ∧ leaveWord (spread occ ||| (2 <<< (2 * trailingZeros16 occ))) (trailingZeros16 occ)
      = spread (occ - 2 ^ (trailingZeros16 occ))
    ∧ pc8 (occ - 2 ^ (trailingZeros16 occ)) + 1 = pc8 occ
    ∧ (occ - 2 ^ (trailingZeros16 occ)) / 2 ^ (trailingZeros16 occ) % 2 = 0
    ∧ ∀ q : Nat, q < 8 → q ≠ trailingZeros16 occ →
        (occ - 2 ^ (trailingZeros16 occ)) / 2 ^ q % 2 = occ / 2 ^ q % 2 := by
  obtain ⟨h1, h2, h3, h4, h5, h6, h7, h8⟩ := enter_spread_get ⟨occ, hocc⟩ hnz
  exact ⟨h1, h2, h3, h4, h5, h6, h7, fun q hq => h8 ⟨q, hq⟩⟩

theorem enter_spread_putn (occ : Nat) (hocc : occ < 256) (hfull : occ ≠ 255) :
    trailingZeros16 (occ ^^^ 255) < 8
    ∧ enter (spread occ) false = some (trailingZeros16 (occ ^^^ 255))
    ∧ occ / 2 ^ (trailingZeros16 (occ ^^^ 255)) % 2 = 0
    ∧ spread occ &&& (2 <<< (2 * trailingZeros16 (occ ^^^ 255))) = 0
    ∧ leaveWord (spread occ ||| (2 <<< (2 * trailingZeros16 (occ ^^^ 255))))
        (trailingZeros16 (occ ^^^ 255))
      = spread (occ + 2 ^ (trailingZeros16 (occ ^^^ 255)))
    ∧ pc8 (occ + 2 ^ (trailingZeros16 (occ ^^^ 255))) = pc8 occ + 1
    ∧ (occ + 2 ^ (trailingZeros16 (occ ^^^ 255)))
        / 2 ^ (trailingZeros16 (occ ^^^ 255)) % 2 = 1
    ∧ occ + 2 ^ (trailingZeros16 (occ ^^^ 255)) < 256
    ∧ ∀ q : Nat, q < 8 → q ≠ trailingZeros16 (occ ^^^ 255) →
        (occ + 2 ^ (trailingZeros16 (occ ^^^ 255))) / 2 ^ q % 2 = occ / 2 ^ q % 2 := by
  obtain ⟨h1, h2, h3, h4, h5, h6, h7, h8, h9⟩ := enter_spread_put ⟨occ, hocc⟩ hfull
  exact ⟨h1, h2, h3, h4, h5, h6, h7, h8, fun q hq => h9 ⟨q, hq⟩⟩

theorem getD_set_self {α : Type} (x : Option α) :
    ∀ (l : List (Option α)) (p : Nat), p < l.length → (l.set p x).getD p none = x := by
  intro l
  induction l with
  | nil => intro p hp; simp at hp
  | cons a t ih =>
    intro p hp
    cases p with
    | zero => rfl
    | succ q =>
      rw [List.set_cons_succ, List.getD_cons_succ]
      exact ih q (by simpa using hp)

theorem getD_set_other {α : Type} (x : Option α) :
    ∀ (l : List (Option α)) (p q : Nat), p ≠ q →
    (l.set p x).getD q none = l.getD q none := by
  intro l
  induction l with
  | nil => intro p q _; rfl
  | cons a t ih =>
    intro p q hne
    cases p with
    | zero =>
      cases q with
      | zero => exact absurd rfl hne
      | succ r => rfl
    | succ s =>
      cases q with
      | zero => rfl
      | succ r =>
        rw [List.set_cons_succ, List.getD_cons_succ, List.getD_cons_succ]
        exact ih s r (by omega)

theorem usize_lit : USIZE = 18446744073709551616 := by norm_num [USIZE]

theorem usize_dec_inc {l : Nat} (h : l < USIZE) :
    ((l + USIZE - 1) % USIZE + 1) % USIZE = l := by
  rw [usize_lit] at *
  rcases Nat.eq_zero_or_pos l with h0 | h1
  · subst h0; norm_num
  · omega

theorem usize_dec {l : Nat} (h1 : 1 ≤ l) (h2 : l ≤ 8) :
    (l + USIZE - 1) % USIZE = l - 1 := by
  rw [usize_lit]
  omega

theorem usize_inc_dec {l : Nat} (h : l ≤ 8) :
    ((l + 1) % USIZE + USIZE - 1) % USIZE = l := by
  rw [usize_lit]
  omega

theorem usize_inc {l : Nat} (h : l ≤ 8) : (l + 1) % USIZE = l + 1 := by
  rw [usize_lit]
  omega

/-- One complete get round on a bucket, as performed by `SyncPool::get`
(pool.rs lines 230-250): `access(true)`, then on success `checkout` followed
by `leave` (the leave happens whether or not the checkout produced a
value). -/
def getRound {α : Type} (b : Bucket2 α) : Bucket2 α × Option α :=
  match access b true with
  | (Except.ok pos, b1) =>
    match checkout b1 pos with
    | Except.ok (v, b2) => (leaveB b2 pos, some v)
    | Except.error _ => (leaveB b1 pos, none)
  | (Except.error _, b1) => (b1, none)

/-- One complete put round on a bucket, as performed by `SyncPool::put`
(pool.rs lines 290-298): `access(false)`, then on success `release` followed
by `leave`.  The boolean reports whether the value was installed. -/
def putRound {α : Type} (b : Bucket2 α) (v : α) (reset : Option (α → α)) :
    Bucket2 α × Bool :=
  match access b false with
  | (Except.ok pos, b1) => (leaveB (release b1 pos v reset) pos, true)
  | (Except.error _, b1) => (b1, false)

theorem accessLoop_enter_none {α : Type} (b : Bucket2 α) (get : Bool)
    (h : enter b.bitmap get = none) :
    ∀ t, accessLoop b get t = accessFailure b get := by
  intro t
  induction t with
  | zero => rfl
  | succ t ih =>
    rw [accessLoop, h]
    exact ih

/-- The quiescent bucket invariant: the bitmap spreads an 8-bit occupancy
pattern `occ` over the presence bits (so all lock bits are clear), the hint
equals the popcount of `occ`, and `occ` records exactly which of the 8 slots
hold a value. -/
def BucketInv {α : Type} (b : Bucket2 α) : Prop :=
  ∃ occ : Nat, occ < 256 ∧ b.bitmap = spread occ ∧ b.len = pc8 occ
    ∧ b.slot.length = 8
    ∧ ∀ p, p < 8 → (occ / 2 ^ p % 2 = 1 ↔ (b.slot.getD p none).isSome)

theorem access_get_ok {α : Type} (bs : List (Option α)) (occ : Nat)
    (hocc : occ < 256) (hnz : occ ≠ 0) :
    access (⟨bs, pc8 occ, spread occ⟩ : Bucket2 α) true
      = (Except.ok (trailingZeros16 occ),
         ⟨bs, pc8 occ - 1, spread occ ||| (2 <<< (2 * trailingZeros16 occ))⟩) := by
  obtain ⟨htz8, henter, hbit1, hand0, hleave, hpc, hbp0, hother⟩ :=
    enter_spread_getn occ hocc hnz
  have hle : pc8 occ ≤ 8 := pc8_le_8n occ hocc
  have hnz' : pc8 occ ≠ 0 := fun h => hnz ((pc8_zero_iffn occ hocc).mp h)
  rw [access]
  rw [if_neg (by
    simp only [SLOT_CAP]
    push_neg
    exact ⟨by omega, fun _ => by omega⟩)]
  rw [if_pos rfl, usize_dec (by omega) hle]
  rw [show TRIALS_COUNT = 3 + 1 from rfl, accessLoop]
  simp only [henter]
  rw [if_pos hand0]

theorem access_put_ok {α : Type} (bs : List (Option α)) (occ : Nat)
    (hocc : occ < 256) (hfull : occ ≠ 255) :
    access (⟨bs, pc8 occ, spread occ⟩ : Bucket2 α) false
      = (Except.ok (trailingZeros16 (occ ^^^ 255)),
         ⟨bs, pc8 occ + 1,
          spread occ ||| (2 <<< (2 * trailingZeros16 (occ ^^^ 255)))⟩) := by
  obtain ⟨htz8, henter, hbit0, hand0, hleave, hpc, hbp1, hlt256, hother⟩ :=
    enter_spread_putn occ hocc hfull
  have hle : pc8 occ ≤ 8 := pc8_le_8n occ hocc
  rw [access]
  rw [if_neg (by
    simp only [SLOT_CAP]
    push_neg
    exact ⟨by omega, by simp⟩)]
  rw [if_neg (by simp), usize_inc hle]
  rw [show TRIALS_COUNT = 3 + 1 from rfl, accessLoop]
  simp only [henter]
  rw [if_pos hand0]

/-- A get round on an invariant-satisfying bucket preserves the invariant. -/
theorem getRound_inv {α : Type} (b : Bucket2 α) (h : BucketInv b) :
    BucketInv (getRound b).1 := by
  obtain ⟨occ, hocc, hbm, hlen, hslen, hiff⟩ := h
  obtain ⟨bs, bl, bb⟩ := b
  simp only at hbm hlen hslen hiff
  subst hbm hlen
  by_cases hz : occ = 0
  · subst hz
    rw [show pc8 0 = (0 : Nat) from rfl, show spread 0 = (0 : Nat) from rfl]
    have hacc : access (⟨bs, 0, 0⟩ : Bucket2 α) true
        = (Except.error (), ⟨bs, ((0 + USIZE - 1) % USIZE + 1) % USIZE, 0⟩) := by
      rw [access]
      rw [if_pos (Or.inr ⟨rfl, rfl⟩)]
      simp [accessFailure]
    rw [getRound, hacc]
    refine ⟨0, by omega, rfl, ?_, hslen, ?_⟩
    · show ((0 + USIZE - 1) % USIZE + 1) % USIZE = pc8 0
      rw [usize_dec_inc (by rw [usize_lit]; omega)]
      rfl
    · exact hiff
  · obtain ⟨htz8, henter, hbit1, hand0, hleave, hpc, hbp0, hother⟩ :=
      enter_spread_getn occ hocc hz
    have hsome : ((bs.getD (trailingZeros16 occ) none)).isSome :=
      (hiff (trailingZeros16 occ) htz8).mp hbit1
    obtain ⟨w, hw⟩ := Option.isSome_iff_exists.mp hsome
    have hco : checkout
        (⟨bs, pc8 occ - 1,
          spread occ ||| (2 <<< (2 * trailingZeros16 occ))⟩ : Bucket2 α)
        (trailingZeros16 occ)
        = Except.ok (w, ⟨bs.set (trailingZeros16 occ) none, pc8 occ - 1,
            spread occ ||| (2 <<< (2 * trailingZeros16 occ))⟩) := by
      unfold checkout
      rw [if_neg (by simp only [SLOT_CAP]; omega)]
      simp only [hw]
    rw [getRound, access_get_ok bs occ hocc hz]
    simp only [hco, leaveB]
    rw [hleave]
    refine ⟨occ - 2 ^ trailingZeros16 occ,
      Nat.lt_of_le_of_lt (Nat.sub_le _ _) hocc, rfl,
      by show pc8 occ - 1 = pc8 (occ - 2 ^ trailingZeros16 occ); omega,
      by rw [List.length_set]; exact hslen, ?_⟩
    intro p hp
    by_cases hp' : p = trailingZeros16 occ
    · subst hp'
      rw [hbp0, getD_set_self _ _ _ (by omega)]
      simp
    · rw [hother p hp hp', getD_set_other _ _ _ _ (fun hh => hp' hh.symm)]
      exact hiff p hp

/-- A put round on an invariant-satisfying bucket preserves the invariant. -/
theorem putRound_inv {α : Type} (b : Bucket2 α) (v : α) (reset : Option (α → α))
    (h : BucketInv b) : BucketInv (putRound b v reset).1 := by
  obtain ⟨occ, hocc, hbm, hlen, hslen, hiff⟩ := h
  obtain ⟨bs, bl, bb⟩ := b
  simp only at hbm hlen hslen hiff
  subst hbm hlen
  by_cases hfull : occ = 255
  · subst hfull
    rw [show pc8 255 = (8 : Nat) from rfl, show spread 255 = (21845 : Nat) from rfl]
    have hen : enter (21845 : Nat) false = none := by decide
    have hacc : access (⟨bs, 8, 21845⟩ : Bucket2 α) false
        = (Except.error (), ⟨bs, ((8 + 1) % USIZE + USIZE - 1) % USIZE, 21845⟩) := by
      rw [access]
      rw [if_neg (by simp [SLOT_CAP])]
      rw [accessLoop_enter_none _ _ hen]
      simp [accessFailure]
    rw [putRound, hacc]
    refine ⟨255, by omega, rfl, ?_, hslen, ?_⟩
    · show ((8 + 1) % USIZE + USIZE - 1) % USIZE = pc8 255
      rw [usize_inc_dec (by omega)]
      rfl
    · exact hiff
  · obtain ⟨htz8, henter, hbit0, hand0, hleave, hpc, hbp1, hlt256, hother⟩ :=
      enter_spread_putn occ hocc hfull
    have hnone : bs.getD (trailingZeros16 (occ ^^^ 255)) none = none := by
      cases hcase : bs.getD (trailingZeros16 (occ ^^^ 255)) none with
      | none => rfl
      | some w =>
        exfalso
        have hcontra := (hiff (trailingZeros16 (occ ^^^ 255)) htz8).mpr
          (by rw [hcase]; rfl)
        omega
    have hrel : release
        (⟨bs, pc8 occ + 1,
          spread occ ||| (2 <<< (2 * trailingZeros16 (occ ^^^ 255)))⟩ : Bucket2 α)
        (trailingZeros16 (occ ^^^ 255)) v reset
        = ⟨bs.set (trailingZeros16 (occ ^^^ 255)) (some (applyReset reset v)),
           pc8 occ + 1,
           spread occ ||| (2 <<< (2 * trailingZeros16 (occ ^^^ 255)))⟩ := by
      unfold release
      rw [if_neg (by
        simp only [SLOT_CAP]
        push_neg
        exact ⟨by omega, by rw [hnone]; simp⟩)]
    rw [putRound, access_put_ok bs occ hocc hfull]
    simp only [hrel, leaveB]
    rw [hleave]
    refine ⟨occ + 2 ^ trailingZeros16 (occ ^^^ 255), hlt256, rfl,
      by show pc8 occ + 1 = pc8 (occ + 2 ^ trailingZeros16 (occ ^^^ 255)); omega,
      by rw [List.length_set]; exact hslen, ?_⟩
    intro p hp
    by_cases hp' : p = trailingZeros16 (occ ^^^ 255)
    · subst hp'
      rw [hbp1, getD_set_self _ _ _ (by omega)]
      simp
    · rw [hother p hp hp', getD_set_other _ _ _ _ (fun hh => hp' hh.symm)]
      exact hiff p hp

/-- The initial pre-filled bucket satisfies the invariant (occupancy 255). -/
theorem bucket2New_inv {α : Type} (v : α) : BucketInv (bucket2New (some v)) := by
  refine ⟨255, by omega, rfl, rfl, by simp [bucket2New, SLOT_CAP], ?_⟩
  intro p hp
  interval_cases p <;> exact ⟨fun _ => rfl, fun _ => rfl⟩

/-- A complete operation round on a bucket: a get round or a put round (the
failure branches inside `access` are part of the rounds). -/
inductive BucketOp (α : Type) : Type where
  | get : BucketOp α
  | put : α → Option (α → α) → BucketOp α

def applyOp {α : Type} (b : Bucket2 α) : BucketOp α → Bucket2 α
  | BucketOp.get => (getRound b).1
  | BucketOp.put v r => (putRound b v r).1

def runOps {α : Type} (b : Bucket2 α) : List (BucketOp α) → Bucket2 α
  | [] => b
  | op :: ops => runOps (applyOp b op) ops

theorem runOps_inv {α : Type} :
    ∀ (ops : List (BucketOp α)) (b : Bucket2 α), BucketInv b →
    BucketInv (runOps b ops) := by
  intro ops
  induction ops with
  | nil => intro b h; exact h
  | cons op ops ih =>
    intro b h
    rw [runOps]
    apply ih
    cases op with
    | get => exact getRound_inv b h
    | put v r => exact putRound_inv b v r h

/-- C2: every bucket reachable from the initial pre-filled state by complete
operation rounds (a successful `access(get)`+`checkout`+`leave`, a successful
`access(put)`+`release`+`leave`, or a failed access — the failure branches are
part of the round functions) satisfies at quiescence: the occupancy hint
equals the popcount of the presence bits of the state word, the hint lies in
`[0, 8]`, and every lock bit (bit `2p+1`) is 0.  The invariant is established
initially and preserved by every round. -/
theorem C2_bucket_hint_invariant {α : Type} (v0 : α) (ops : List (BucketOp α)) :
    (runOps (bucket2New (some v0)) ops).len
        = presenceCount (runOps (bucket2New (some v0)) ops).bitmap
    ∧ (runOps (bucket2New (some v0)) ops).len ≤ 8
    ∧ ∀ p, p < 8 →
        (runOps (bucket2New (some v0)) ops).bitmap.testBit (2 * p + 1) = false := by
  obtain ⟨occ, hocc, hbm, hlen, _hsl, _hiff⟩ :=
    runOps_inv ops (bucket2New (some v0)) (bucket2New_inv v0)
  refine ⟨?_, ?_, ?_⟩
  · rw [hbm, hlen, presenceCount_spreadn occ hocc]
  · rw [hlen]
    exact pc8_le_8n occ hocc
  · intro p hp
    rw [hbm]
    exact spread_lock_clearn occ hocc p hp

/-- Witness for C2: after one get round from the pre-filled bucket, slot 0's
lock bit is clear. -/
theorem C2_bucket_hint_invariant_witness :
    (runOps (bucket2New (some (0 : Nat))) [BucketOp.get]).bitmap.testBit 1 = false :=
  (C2_bucket_hint_invariant 0 [BucketOp.get]).2.2 0 (by decide)

/-! ### `SyncPool` (pool.rs)

The pool: a vector of buckets, two rotating cursors (`curr.0` for `get`,
`curr.1` for `put`), the visitor counter pair, the miss counter, the config
bitset, the optional reset hook, and the element builder.  The builder is
modelled as the (fixed) element it constructs, standing for all three
construction strategies (`make_elem` returns `builder`). -/

/-- `POOL_SIZE` from pool.rs. -/
def POOL_SIZE : Nat := 8

/-- `EXPANSION_CAP` from pool.rs. -/
def EXPANSION_CAP : Nat := 512

/-- `CONFIG_ALLOW_EXPANSION` from pool.rs. -/
def CONFIG_ALLOW_EXPANSION : Nat := 1

structure SyncPool (α : Type) : Type where
  slots : List (Bucket2 α)
  curr0 : Nat
  curr1 : Nat
  visitors : Nat
  barrier : Bool
  missCount : Nat
  configure : Nat
  resetHandle : Option (α → α)
  builder : α

/-- The scan loop of `SyncPool::get` (pool.rs lines 225-263).  On success the
position is stored into the cursor; on a checkout failure the loop breaks
(the caller then takes the miss path); on Busy the next position is the
pre-increment cursor value modulo the bucket count (`fetch_add` returns the
old value), and the loop ends once the decremented trial count reaches 0.
The `trials = 0` entry case cannot arise from `SyncPool::get` (there
`trials` starts at the positive bucket count); it is mapped to the break
branch. -/
def getLoop {α : Type} :
    List (Bucket2 α) → Nat → Nat → Nat → List (Bucket2 α) × Nat × Option α
  | slots, curr0, pos, trials =>
    match slots.get? pos with
    | none => (slots, curr0, none)
    | some b =>
      match access b true with
      | (Except.ok i, b1) =>
        match checkout b1 i with
        | Except.ok (v, b2) => (slots.set pos (leaveB b2 i), pos, some v)
        | Except.error _ => (slots.set pos (leaveB b1 i), curr0, none)
      | (Except.error _, b1) =>
        match trials with
        | 0 => (slots.set pos b1, curr0 + 1, none)
        | t + 1 =>
          if t = 0 then (slots.set pos b1, curr0 + 1, none)
          else getLoop (slots.set pos b1) (curr0 + 1) (curr0 % slots.length) t

/-- `SyncPool::get` (pool.rs lines 213-271).  The final boolean instruments
the return site: `true` for a value checked out of a bucket, `false` for the
barrier fast-fail and for the miss path.  The visitor guard is registered on
entry (unless the barrier is up) and dropped on every exit. -/
def poolGet {α : Type} (p : SyncPool α) : α × SyncPool α × Bool :=
  if p.barrier then (p.builder, p, false)
  else
    match getLoop p.slots p.curr0 (p.curr0 % p.slots.length) p.slots.length with
    | (slots1, c0, some v) =>
      (v, { p with slots := slots1, curr0 := c0,
                   visitors := p.visitors + 1 - 1 }, true)
    | (slots1, c0, none) =>
      (p.builder,
       { p with slots := slots1, curr0 := c0, visitors := p.visitors + 1 - 1,
                missCount := p.missCount + 1 }, false)

/-- The scan loop of `SyncPool::put` (pool.rs lines 285-327), with the same
conventions as `getLoop`; on exhaustion the value is returned to the
caller. -/
def putLoop {α : Type} :
    List (Bucket2 α) → Nat → Nat → α → Option (α → α) → Nat →
      List (Bucket2 α) × Nat × Option α
  | slots, curr1, pos, v, reset, trials =>
    match slots.get? pos with
    | none => (slots, curr1, some v)
    | some b =>
      match access b false with
      | (Except.ok i, b1) =>
        (slots.set pos (leaveB (release b1 i v reset) i), pos, none)
      | (Except.error _, b1) =>
        match trials with
        | 0 => (slots.set pos b1, curr1 + 1, some v)
        | t + 1 =>
          if t = 0 then (slots.set pos b1, curr1 + 1, some v)
          else putLoop (slots.set pos b1) (curr1 + 1) (curr1 % slots.length) v reset t

/-- `SyncPool::put` (pool.rs lines 276-328).  The visitor guard always waits
on the barrier; the model treats the registration wait as completed, so
theorems about `put` describe the behaviour once the barrier is down. -/
def poolPut {α : Type} (p : SyncPool α) (v : α) : Option α × SyncPool α :=
  match putLoop p.slots p.curr1 (p.curr1 % p.slots.length) v p.resetHandle
      (2 * p.slots.length) with
  | (slots1, c1, r) =>
    (r, { p with slots := slots1, curr1 := c1, visitors := p.visitors + 1 - 1 })

/-- `SyncPool::add_slots`: push `count` new buckets (pre-filled when
`fill`). -/
def addSlots {α : Type} (p : SyncPool α) (count : Nat) (fill : Bool) : SyncPool α :=
  { p with slots := p.slots
      ++ List.replicate count (bucket2New (if fill then some p.builder else none)) }

/-- `SyncPool::make_pool`. -/
def makePool {α : Type} (size : Nat) (builder : α) : SyncPool α :=
  addSlots
    { slots := [], curr0 := 0, curr1 := 0, visitors := 1, barrier := false,
      missCount := 0, configure := 0, resetHandle := none, builder := builder }
    size true

/-- `SyncPool::with_size`: the bucket count is `size / SLOT_CAP`, rounded up
to at least 1. -/
def withSize {α : Type} (size : Nat) (builder : α) : SyncPool α :=
  makePool (if size / SLOT_CAP < 1 then 1 else size / SLOT_CAP) builder

/-- `PoolState::len`: the sum of the buckets' size hints. -/
def poolLen {α : Type} (p : SyncPool α) : Nat :=
  p.slots.foldl (fun sum b => sum + sizeHint b) 0

/-- `PoolState::capacity`. -/
def poolCapacity {α : Type} (p : SyncPool α) : Nat := p.slots.length * SLOT_CAP

/-- `PoolState::expansion_enabled`. -/
def expansionEnabled {α : Type} (p : SyncPool α) : Bool :=
  decide (p.configure &&& CONFIG_ALLOW_EXPANSION > 0)

/-- C9: when the write barrier is raised, `get` does not wait: it skips the
visitor registration and returns a freshly built element, and the pool state
is returned untouched — no bucket slot, state word, hint, cursor, visitor
count or miss counter changes. -/
theorem C9_get_barrier_fast_fail {α : Type} (p : SyncPool α)
    (hbar : p.barrier = true) :
    poolGet p = (p.builder, p, false) := by
  rw [poolGet, if_pos hbar]

/-- Witness for C9 on a concrete one-bucket pool with the barrier up. -/
theorem C9_get_barrier_fast_fail_witness :
    poolGet { makePool 1 (0 : Nat) with barrier := true }
      = (({ makePool 1 (0 : Nat) with barrier := true }).builder,
         { makePool 1 (0 : Nat) with barrier := true }, false) :=
  C9_get_barrier_fast_fail { makePool 1 (0 : Nat) with barrier := true } rfl

/-- C4: `get` always produces a value (the model is a total function); when
the barrier is down, the miss counter increases by exactly 1 when no pooled
element was checked out within the trial budget (and the value returned is
then a freshly built element), and stays unchanged when a pooled element is
returned. -/
theorem C4_get_miss_accounting {α : Type} (p : SyncPool α)
    (hbar : p.barrier = false) :
    (poolGet p).2.1.missCount
        = p.missCount + (if (poolGet p).2.2 then 0 else 1)
    ∧ ((poolGet p).2.2 = false → (poolGet p).1 = p.builder) := by
  rw [poolGet, hbar]
  simp only [Bool.false_eq_true, if_false]
  cases hloop : getLoop p.slots p.curr0 (p.curr0 % p.slots.length) p.slots.length with
  | mk slots1 rest =>
    obtain ⟨c0, r⟩ := rest
    cases r with
    | none => simp
    | some v => simp

/-- Witness for C4 on a concrete one-bucket pre-filled pool (a pooled element
is returned, so the miss counter is unchanged). -/
theorem C4_get_miss_accounting_witness :
    (poolGet (makePool 1 (0 : Nat))).2.1.missCount
        = (makePool 1 (0 : Nat)).missCount
          + (if (poolGet (makePool 1 (0 : Nat))).2.2 then 0 else 1) :=
  (C4_get_miss_accounting (makePool 1 (0 : Nat)) rfl).1

/-! ### C7: cursor directions

The spec claims `put` advances its cursor by −1 modulo the bucket count on
every Busy outcome, opposite to `get`.  In the source both loops use
`fetch_add(1)` (pool.rs lines 256 and 320), so both cursors move by +1. -/

/-- Modelled from the spec: the claimed `put` scan loop in which every Busy
outcome advances the cursor by −1 modulo the bucket count ("back off …
advance cursor by −1 modulo bucket count"); identical to `putLoop`
otherwise. -/
def putLoopSpecMinus {α : Type} :
    List (Bucket2 α) → Nat → Nat → α → Option (α → α) → Nat →
      List (Bucket2 α) × Nat × Option α
  | slots, curr1, pos, v, reset, trials =>
    match slots.get? pos with
    | none => (slots, curr1, some v)
    | some b =>
      match access b false with
      | (Except.ok i, b1) =>
        (slots.set pos (leaveB (release b1 i v reset) i), pos, none)
      | (Except.error _, b1) =>
        match trials with
        | 0 => (slots.set pos b1, (curr1 + slots.length - 1) % slots.length, some v)
        | t + 1 =>
          if t = 0 then
            (slots.set pos b1, (curr1 + slots.length - 1) % slots.length, some v)
          else
            putLoopSpecMinus (slots.set pos b1)
              ((curr1 + slots.length - 1) % slots.length)
              ((curr1 + slots.length - 1) % slots.length) v reset t

/-- Modelled from the spec: `put` with the claimed −1 cursor movement. -/
def poolPutSpecMinus {α : Type} (p : SyncPool α) (v : α) :
    Option α × SyncPool α :=
  match putLoopSpecMinus p.slots p.curr1 (p.curr1 % p.slots.length) v
      p.resetHandle (2 * p.slots.length) with
  | (slots1, c1, r) =>
    (r, { p with slots := slots1, curr1 := c1, visitors := p.visitors + 1 - 1 })

/-- A concrete full bucket over `Nat`. -/
def fullBucketN : Bucket2 Nat := bucket2New (some 0)

/-- A concrete empty (and consistent) bucket over `Nat`. -/
def emptyBucketN : Bucket2 Nat := ⟨List.replicate 8 none, 0, 0⟩

/-- A concrete three-bucket pool: bucket 0 full, buckets 1 and 2 empty. -/
def pool3 : SyncPool Nat :=
  { slots := [fullBucketN, emptyBucketN, emptyBucketN], curr0 := 0, curr1 := 0,
    visitors := 1, barrier := false, missCount := 0, configure := 0,
    resetHandle := none, builder := 7 }

/-- Counterexample to C7 as stated: on `pool3` (cursor 0, bucket 0 full), the
code's `put` suffers a Busy outcome on bucket 0 and then moves forward,
installing the value in bucket 1 and leaving the cursor at 1; under the
spec's −1-per-Busy rule the value would land in bucket 2 with the cursor at
2. -/
theorem C7_put_cursor_counterexample :
    (poolPut pool3 42).2.curr1 = 1
    ∧ ((poolPut pool3 42).2.slots.getD 1 emptyBucketN).slot.getD 0 none = some 42
    ∧ ((poolPut pool3 42).2.slots.getD 2 emptyBucketN).slot.getD 0 none = none
    ∧ (poolPutSpecMinus pool3 42).2.curr1 = 2
    ∧ ((poolPutSpecMinus pool3 42).2.slots.getD 2 emptyBucketN).slot.getD 0 none
        = some 42
    ∧ ((poolPutSpecMinus pool3 42).2.slots.getD 1 emptyBucketN).slot.getD 0 none
        = none
    ∧ (1 : Nat) ≠ 2 := by
  refine ⟨?_, ?_, ?_, ?_, ?_, ?_, by decide⟩ <;> decide

/-- C7 amended: on every Busy outcome both `put` and `get` advance their
cursor by +1 — the stored cursor is incremented and the next scan position is
the old cursor value modulo the bucket count — so the two cursors move in the
same direction, not opposite directions. -/
theorem C7_amended_cursors_same_direction {α : Type}
    (slots : List (Bucket2 α)) (c pos : Nat) (v : α) (reset : Option (α → α))
    (t : Nat) :
    (∀ b b1, slots.get? pos = some b →
      access b false = (Except.error (), b1) →
      putLoop slots c pos v reset (t + 2)
        = putLoop (slots.set pos b1) (c + 1) (c % slots.length) v reset (t + 1))
    ∧ (∀ b b1, slots.get? pos = some b →
      access b true = (Except.error (), b1) →
      getLoop slots c pos (t + 2)
        = getLoop (slots.set pos b1) (c + 1) (c % slots.length) (t + 1)) := by
  constructor
  · intro b b1 hget hacc
    rw [putLoop]
    simp only [hget, hacc]
    rw [if_neg (by omega)]
  · intro b b1 hget hacc
    rw [getLoop]
    simp only [hget, hacc]
    rw [if_neg (by omega)]

/-- Witness for the amended C7 on a concrete one-bucket full pool. -/
theorem C7_amended_cursors_same_direction_witness :
    putLoop [fullBucketN] 0 0 (42 : Nat) none 2
      = putLoop ([fullBucketN].set 0 (access fullBucketN false).2) 1 (0 % 1)
          42 none 1 :=
  (C7_amended_cursors_same_direction [fullBucketN] 0 0 42 none 0).1
    fullBucketN (access fullBucketN false).2 rfl rfl

/-! ### C6: the expansion cap -/

/-- `SyncPool::update_config`, sequential: the compare-exchange succeeds on
the first attempt, XOR-ing the mask into the configuration word. -/
def updateConfig {α : Type} (p : SyncPool α) (mask : Nat) (_target : Bool) :
    SyncPool α :=
  { p with configure := p.configure ^^^ mask }

/-- `PoolManager::allow_expansion`. -/
def allowExpansion {α : Type} (p : SyncPool α) (allow : Bool) : SyncPool α :=
  if !((expansionEnabled p).xor allow) then p
  else updateConfig p CONFIG_ALLOW_EXPANSION allow

/-- `PoolManager::expand` (pool.rs lines 497-552), sequential model: the
barrier CAS succeeds iff the barrier is down, and the visitor drain resolves
immediately — it succeeds iff the visitor count is at the sentinel 1 (with
`block = true` and other visitors present the source would spin forever in a
single-threaded run, as the count cannot change; the model maps that to the
not-safe exit).  On either exit the visitor count is stored back to 1 and
the barrier is lowered, as in the source. -/
def expand {α : Type} (p : SyncPool α) (additional : Nat) (_block : Bool) :
    Bool × SyncPool α :=
  if !(expansionEnabled p) then (false, p)
  else if p.slots.length > EXPANSION_CAP then (false, p)
  else if p.barrier then (false, p)
  else if p.visitors = 1 then
    (true, { addSlots p additional true with
             missCount := 0, visitors := 1, barrier := false })
  else (false, { p with visitors := 1, barrier := false })

/-- A pool with expansion enabled, built like the source does it. -/
def poolExpandable : SyncPool Nat := allowExpansion (makePool POOL_SIZE 0) true

/-- Counterexample to C6 as stated: from a 8-bucket pool with expansion
enabled, a single `expand(600, true)` succeeds (the guard only rejects when
the bucket count already exceeds 512) and leaves 608 > 512 buckets, so the
bucket count is not capped at 512. -/
theorem C6_expansion_cap_counterexample :
    (expand poolExpandable 600 true).1 = true
    ∧ (expand poolExpandable 600 true).2.slots.length = 608
    ∧ ¬(608 ≤ EXPANSION_CAP) := by
  refine ⟨?_, ?_, by decide⟩ <;> decide

/-- C6 amended: `expand` returns `false` and adds nothing when the bucket
vector is already above `EXPANSION_CAP = 512`; a successful
`expand(additional, block)` therefore starts from at most 512 buckets and
appends exactly `additional` buckets, so the bucket count can exceed 512
(only) by the last successful call's `additional`. -/
theorem C6_amended_expansion_cap {α : Type} (p : SyncPool α) (n : Nat)
    (block : Bool) :
    (p.slots.length > EXPANSION_CAP → expand p n block = (false, p))
    ∧ ((expand p n block).1 = true →
        p.slots.length ≤ EXPANSION_CAP
        ∧ (expand p n block).2.slots.length = p.slots.length + n) := by
  constructor
  · intro hlen
    rw [expand]
    cases henb : expansionEnabled p
    · rw [if_pos (show (!false) = true from rfl)]
    · rw [if_neg (by simp), if_pos hlen]
  · intro hsucc
    rw [expand] at hsucc
    cases henb : expansionEnabled p
    · rw [henb, if_pos (show (!false) = true from rfl)] at hsucc
      simp at hsucc
    · rw [henb, if_neg (by simp)] at hsucc
      by_cases hlen : p.slots.length > EXPANSION_CAP
      · rw [if_pos hlen] at hsucc
        simp at hsucc
      · rw [if_neg hlen] at hsucc
        by_cases hbar : p.barrier = true
        · rw [if_pos hbar] at hsucc
          simp at hsucc
        · rw [if_neg hbar] at hsucc
          by_cases hvis : p.visitors = 1
          · rw [expand, henb, if_neg (by simp), if_neg hlen, if_neg hbar,
              if_pos hvis]
            refine ⟨by omega, ?_⟩
            show (addSlots p n true).slots.length = p.slots.length + n
            rw [addSlots]
            simp
          · rw [if_neg hvis] at hsucc
            simp at hsucc

/-- Witness for the amended C6 on a concrete pool of 513 buckets. -/
theorem C6_amended_expansion_cap_witness :
    expand { makePool 1 (0 : Nat) with
             slots := List.replicate 513 (bucket2New (some 0)), configure := 1 }
        1 true
      = (false, { makePool 1 (0 : Nat) with
                  slots := List.replicate 513 (bucket2New (some 0)),
                  configure := 1 }) :=
  (C6_amended_expansion_cap
    { makePool 1 (0 : Nat) with
      slots := List.replicate 513 (bucket2New (some 0)), configure := 1 }
    1 true).1 (by decide)

/-! ### C5: `put` never loses the value -/

/-- The contents of slot `si` of bucket `bi` in a bucket list. -/
def slotsVal {α : Type} (slots : List (Bucket2 α)) (bi si : Nat) : Option α :=
  match slots.get? bi with
  | some b => b.slot.getD si none
  | none => none

/-- Consistency of a bucket: eight slots, a 16-bit state word, and the
presence bits record exactly which slots hold a value. -/
def BucketConsistent {α : Type} (b : Bucket2 α) : Prop :=
  b.slot.length = 8 ∧ b.bitmap < 65536
  ∧ ∀ q, q < 8 → (b.bitmap.testBit (2 * q) = true ↔ (b.slot.getD q none).isSome = true)

theorem get?_set_self2 {β : Type} :
    ∀ (l : List β) (p : Nat) (x : β), p < l.length → (l.set p x).get? p = some x := by
  intro l
  induction l with
  | nil => intro p x hp; simp at hp
  | cons a t ih =>
    intro p x hp
    cases p with
    | zero => rfl
    | succ q =>
      rw [List.set_cons_succ]
      exact ih q x (by simpa using hp)

theorem get?_set_other2 {β : Type} :
    ∀ (l : List β) (p q : Nat) (x : β), p ≠ q → (l.set p x).get? q = l.get? q := by
  intro l
  induction l with
  | nil => intro p q x _; rfl
  | cons a t ih =>
    intro p q x hne
    cases p with
    | zero =>
      cases q with
      | zero => exact absurd rfl hne
      | succ r => rfl
    | succ sp =>
      cases q with
      | zero => rfl
      | succ r =>
        rw [List.set_cons_succ]
        show (t.set sp x).get? r = t.get? r
        exact ih sp r x (by omega)

theorem slotsVal_set_self {α : Type} (slots : List (Bucket2 α)) (pos : Nat)
    (b1 : Bucket2 α) (si : Nat) (h : pos < slots.length) :
    slotsVal (slots.set pos b1) pos si = b1.slot.getD si none := by
  rw [slotsVal, get?_set_self2 slots pos b1 h]

theorem slotsVal_set_other {α : Type} (slots : List (Bucket2 α)) (pos bj : Nat)
    (b1 : Bucket2 α) (sj : Nat) (h : bj ≠ pos) :
    slotsVal (slots.set pos b1) bj sj = slotsVal slots bj sj := by
  rw [slotsVal, slotsVal, get?_set_other2 slots pos bj b1 (fun hh => h hh.symm)]

theorem get?_lt_length {β : Type} {l : List β} {n : Nat} {x : β}
    (h : l.get? n = some x) : n < l.length := by
  by_contra hge
  rw [List.get?_eq_none.mpr (by omega)] at h
  cases h

/-- Replacing a bucket by one with the same slot array does not change any
slot contents. -/
theorem slotsVal_set_same_slot {α : Type} (slots : List (Bucket2 α)) (pos : Nat)
    (b b1 : Bucket2 α) (hget : slots.get? pos = some b) (hslot1 : b1.slot = b.slot) :
    ∀ bj sj, slotsVal (slots.set pos b1) bj sj = slotsVal slots bj sj := by
  intro bj sj
  by_cases h : bj = pos
  · subst h
    rw [slotsVal_set_self _ _ _ _ (get?_lt_length hget), slotsVal, hget, hslot1]
  · exact slotsVal_set_other _ _ _ _ _ h

theorem slotMatch_lock_clear {s : Nat} {g : Bool} {i : Nat}
    (h : slotMatch s g i = true) : s.testBit (2 * i + 1) = false := by
  rw [slotMatch] at h
  cases g
  · simp only [Bool.false_eq_true, if_false, Bool.and_eq_true,
      Bool.not_eq_true'] at h
    exact h.2
  · simp only [eq_self_iff_true, if_true, Bool.and_eq_true,
      Bool.not_eq_true'] at h
    exact h.2

theorem slotMatch_put_empty {s : Nat} {i : Nat}
    (h : slotMatch s false i = true) : s.testBit (2 * i) = false := by
  rw [slotMatch] at h
  simp only [Bool.false_eq_true, if_false, Bool.and_eq_true,
    Bool.not_eq_true'] at h
  exact h.1

/-- The sequential outcome of `Bucket2::access` on any 16-bit state word:
either it fails and the slots and state word are untouched (only the hint
was reverted), or it succeeds with a slot index below 8 that matches the
request (presence bit set for get, clear for put; lock bit clear), the lock
bit now OR-ed into the state word. -/
theorem access_cases {α : Type} (b : Bucket2 α) (get : Bool)
    (hbm : b.bitmap < 65536) :
    (∃ b1 : Bucket2 α, access b get = (Except.error (), b1)
      ∧ b1.slot = b.slot ∧ b1.bitmap = b.bitmap)
    ∨ (∃ i b1, access b get = (Except.ok i, b1) ∧ i < 8
      ∧ slotMatch b.bitmap get i = true
      ∧ b1.slot = b.slot ∧ b1.bitmap = b.bitmap ||| (2 <<< (2 * i))) := by
  rw [access]
  by_cases hgate : b.len > SLOT_CAP ∨ (get = true ∧ b.len = 0)
  · rw [if_pos hgate]
    left
    rw [accessFailure]
    cases get
    · rw [if_neg (by simp)]
      exact ⟨_, rfl, rfl, rfl⟩
    · rw [if_pos rfl]
      exact ⟨_, rfl, rfl, rfl⟩
  · rw [if_neg hgate]
    cases henter : enter b.bitmap get with
    | none =>
      left
      have henter2 : enter ({ b with
          len := if get = true then (b.len + USIZE - 1) % USIZE
            else (b.len + 1) % USIZE } : Bucket2 α).bitmap get = none := henter
      rw [accessLoop_enter_none _ _ henter2]
      rw [accessFailure]
      cases get
      · rw [if_neg (by simp)]
        exact ⟨_, rfl, rfl, rfl⟩
      · rw [if_pos rfl]
        exact ⟨_, rfl, rfl, rfl⟩
    | some i =>
      right
      have hloc : locateSpec b.bitmap get = some i := by
        rw [← enter_eq_locateSpec b.bitmap hbm get, henter]
      have hi8 : i < 8 := by
        have hmem := List.mem_of_find?_eq_some hloc
        simpa using hmem
      have hmatch : slotMatch b.bitmap get i = true := List.find?_some hloc
      have hand : b.bitmap &&& (2 <<< (2 * i)) = 0 := by
        rw [lock_mask_eq, Nat.and_two_pow, slotMatch_lock_clear hmatch]
        simp
      rw [show TRIALS_COUNT = 3 + 1 from rfl, accessLoop]
      simp only [henter]
      rw [if_pos hand]
      exact ⟨i, _, rfl, hi8, hmatch, rfl, rfl⟩

/-- The success branch of a put scan installs the (possibly reset) value in
a previously empty slot and changes no other slot. -/
theorem put_success_spec {α : Type} (slots : List (Bucket2 α)) (pos i : Nat)
    (b b1 : Bucket2 α) (v : α) (reset : Option (α → α))
    (hget : slots.get? pos = some b)
    (hlen8 : b.slot.length = 8)
    (hiffb : ∀ q, q < 8 → (b.bitmap.testBit (2 * q) = true
      ↔ (b.slot.getD q none).isSome = true))
    (hi8 : i < 8)
    (hmatch : slotMatch b.bitmap false i = true)
    (hslot1 : b1.slot = b.slot) :
    ∃ bi si, si < 8 ∧ slotsVal slots bi si = none
      ∧ slotsVal (slots.set pos (leaveB (release b1 i v reset) i)) bi si
          = some (applyReset reset v)
      ∧ ∀ bj sj, ¬(bj = bi ∧ sj = si) →
          slotsVal (slots.set pos (leaveB (release b1 i v reset) i)) bj sj
            = slotsVal slots bj sj := by
  have hpres : b.bitmap.testBit (2 * i) = false := slotMatch_put_empty hmatch
  have hempty : b.slot.getD i none = none := by
    cases hcase : b.slot.getD i none with
    | none => rfl
    | some w =>
      exfalso
      have hsome := (hiffb i hi8).mpr (by rw [hcase]; rfl)
      rw [hpres] at hsome
      cases hsome
  have hrel : release b1 i v reset
      = { b1 with slot := b1.slot.set i (some (applyReset reset v)) } := by
    rw [release, if_neg]
    push_neg
    refine ⟨by simp only [SLOT_CAP]; omega, ?_⟩
    rw [hslot1, hempty]
    simp
  refine ⟨pos, i, hi8, ?_, ?_, ?_⟩
  · rw [slotsVal, hget]
    exact hempty
  · rw [slotsVal_set_self _ _ _ _ (get?_lt_length hget)]
    rw [leaveB]
    show (release b1 i v reset).slot.getD i none = some (applyReset reset v)
    rw [hrel]
    show (b1.slot.set i (some (applyReset reset v))).getD i none
        = some (applyReset reset v)
    exact getD_set_self _ _ _ (by rw [hslot1, hlen8]; omega)
  · intro bj sj hne
    by_cases hbj : bj = pos
    · subst hbj
      have hsj : sj ≠ i := fun hh => hne ⟨rfl, hh⟩
      rw [slotsVal_set_self _ _ _ _ (get?_lt_length hget)]
      rw [leaveB]
      show (release b1 i v reset).slot.getD sj none = slotsVal slots bj sj
      rw [hrel]
      show (b1.slot.set i (some (applyReset reset v))).getD sj none
          = slotsVal slots bj sj
      rw [getD_set_other _ _ _ _ (fun hh => hsj hh.symm), hslot1, slotsVal, hget]
    · exact slotsVal_set_other _ _ _ _ _ hbj

/-- The put scan loop either returns exactly the value it was given, or
installs the (possibly reset) value in exactly one previously empty slot of
some bucket, leaving every other slot unchanged. -/
theorem putLoop_spec {α : Type} (v : α) (reset : Option (α → α)) :
    ∀ (trials : Nat) (slots : List (Bucket2 α)) (curr1 pos : Nat),
    (∀ b ∈ slots, BucketConsistent b) →
    (∀ w, (putLoop slots curr1 pos v reset trials).2.2 = some w → w = v)
    ∧ ((putLoop slots curr1 pos v reset trials).2.2 = none →
      ∃ bi si, si < 8 ∧ slotsVal slots bi si = none
        ∧ slotsVal (putLoop slots curr1 pos v reset trials).1 bi si
            = some (applyReset reset v)
        ∧ ∀ bj sj, ¬(bj = bi ∧ sj = si) →
            slotsVal (putLoop slots curr1 pos v reset trials).1 bj sj
              = slotsVal slots bj sj) := by
  intro trials
  induction trials with
  | zero =>
    intro slots curr1 pos hcons
    rw [putLoop]
    cases hget : slots.get? pos with
    | none =>
      refine ⟨fun w hw => ?_, fun hnone => ?_⟩
      · simp only at hw
        exact (Option.some_inj.mp hw).symm
      · simp only at hnone
        cases hnone
    | some b =>
      obtain ⟨hlen8, hbm16, hiffb⟩ := hcons b (List.get?_mem hget)
      rcases access_cases b false hbm16 with
        ⟨b1, hacc, hslot1, hbm1⟩ | ⟨i, b1, hacc, hi8, hmatch, hslot1, hbm1⟩
      · simp only [hacc]
        refine ⟨fun w hw => ?_, fun hnone => ?_⟩
        · simp only at hw
          exact (Option.some_inj.mp hw).symm
        · simp only at hnone
          cases hnone
      · simp only [hacc]
        refine ⟨fun w hw => ?_, fun _ => ?_⟩
        · simp only at hw
          cases hw
        · exact put_success_spec slots pos i b b1 v reset hget hlen8 hiffb hi8
            hmatch hslot1
  | succ t ih =>
    intro slots curr1 pos hcons
    rw [putLoop]
    cases hget : slots.get? pos with
    | none =>
      refine ⟨fun w hw => ?_, fun hnone => ?_⟩
      · simp only at hw
        exact (Option.some_inj.mp hw).symm
      · simp only at hnone
        cases hnone
    | some b =>
      obtain ⟨hlen8, hbm16, hiffb⟩ := hcons b (List.get?_mem hget)
      rcases access_cases b false hbm16 with
        ⟨b1, hacc, hslot1, hbm1⟩ | ⟨i, b1, hacc, hi8, hmatch, hslot1, hbm1⟩
      · simp only [hacc]
        by_cases ht : t = 0
        · rw [if_pos ht]
          refine ⟨fun w hw => ?_, fun hnone => ?_⟩
          · simp only at hw
            exact (Option.some_inj.mp hw).symm
          · simp only at hnone
            cases hnone
        · rw [if_neg ht]
          have hcons1 : ∀ x ∈ slots.set pos b1, BucketConsistent x := by
            intro x hx
            rcases List.mem_or_eq_of_mem_set hx with hx | hx
            · exact hcons x hx
            · subst hx
              obtain ⟨h1, h2, h3⟩ := hcons b (List.get?_mem hget)
              exact ⟨by rw [hslot1]; exact h1, by rw [hbm1]; exact h2,
                fun q hq => by rw [hslot1, hbm1]; exact h3 q hq⟩
          have hsv := slotsVal_set_same_slot slots pos b b1 hget hslot1
          have hrec := ih (slots.set pos b1) (curr1 + 1) (curr1 % slots.length)
            hcons1
          refine ⟨hrec.1, fun hnone => ?_⟩
          obtain ⟨bi, si, hsi, hpre, hpost, hframe⟩ := hrec.2 hnone
          exact ⟨bi, si, hsi, by rw [← hsv bi si]; exact hpre, hpost,
            fun bj sj hne => by rw [hframe bj sj hne, hsv]⟩
      · simp only [hacc]
        refine ⟨fun w hw => ?_, fun _ => ?_⟩
        · simp only at hw
          cases hw
        · exact put_success_spec slots pos i b b1 v reset hget hlen8 hiffb hi8
            hmatch hslot1

/-- C5: for every (well-formed) pool state and every value `v`, `put v`
either installs the value — after applying the reset hook when one is set —
into exactly one previously empty slot of some bucket and returns `none`, or
returns `some v` with the very value that was passed in (after exhausting the
`2 × bucket_count` trial budget wired into `poolPut`); it never drops the
value and never returns a different one. -/
theorem C5_put_installs_or_returns {α : Type} (p : SyncPool α) (v : α)
    (hwf : ∀ b ∈ p.slots, BucketConsistent b) :
    (∀ w, (poolPut p v).1 = some w → w = v)
    ∧ ((poolPut p v).1 = none →
      ∃ bi si, si < 8 ∧ slotsVal p.slots bi si = none
        ∧ slotsVal (poolPut p v).2.slots bi si = some (applyReset p.resetHandle v)
        ∧ ∀ bj sj, ¬(bj = bi ∧ sj = si) →
            slotsVal (poolPut p v).2.slots bj sj = slotsVal p.slots bj sj) := by
  have hspec := putLoop_spec v p.resetHandle (2 * p.slots.length) p.slots p.curr1
    (p.curr1 % p.slots.length) hwf
  rw [poolPut]
  cases hloop : putLoop p.slots p.curr1 (p.curr1 % p.slots.length) v p.resetHandle
      (2 * p.slots.length) with
  | mk slots1 rest =>
    obtain ⟨c1, r⟩ := rest
    rw [hloop] at hspec
    simp only at hspec
    exact hspec

/-! ### C3: single-threaded get/put round trips -/

/-- One round of the round-trip workload: `get()`, immediately followed by
`put()` of the very value obtained. -/
def roundTrip {α : Type} (p : SyncPool α) : SyncPool α :=
  match poolGet p with
  | (v, p1, _) => (poolPut p1 v).2

/-- `k` repetitions of the get/put round. -/
def iterRounds {α : Type} : Nat → SyncPool α → SyncPool α
  | 0, p => p
  | k + 1, p => iterRounds k (roundTrip p)

/-- C3: on a freshly constructed single-threaded pool of capacity 16
(`SyncPool::with_size(16)`, two full buckets, no reset hook), any number `k`
of repetitions of `get()` immediately followed by `put()` of the value
obtained leaves `len()` at its initial value, which is the full capacity 16,
and leaves `miss_count()` at 0. -/
theorem C3_get_put_round_trip (k : Nat) :
    poolLen (iterRounds k (withSize 16 (0 : Nat)))
        = poolLen (withSize 16 (0 : Nat))
    ∧ poolLen (withSize 16 (0 : Nat)) = 16
    ∧ (iterRounds k (withSize 16 (0 : Nat))).missCount = 0 := by
  have hrt : roundTrip (withSize 16 (0 : Nat)) = withSize 16 0 := rfl
  have hfix : ∀ j, iterRounds j (withSize 16 (0 : Nat)) = withSize 16 0 := by
    intro j
    induction j with
    | zero => rfl
    | succ j ih =>
      rw [iterRounds, hrt]
      exact ih
  rw [hfix k]
  exact ⟨rfl, rfl, rfl⟩

/-- Witness for C3: one concrete round on the capacity-16 pool keeps
`len()` at 16 and the miss counter at 0. -/
theorem C3_get_put_round_trip_witness :
    poolLen (iterRounds 1 (withSize 16 (0 : Nat))) = 16
    ∧ (iterRounds 1 (withSize 16 (0 : Nat))).missCount = 0 :=
  ⟨((C3_get_put_round_trip 1).1).trans (C3_get_put_round_trip 1).2.1,
   (C3_get_put_round_trip 1).2.2⟩

theorem makePool1_consistent : ∀ b ∈ (makePool 1 (0 : Nat)).slots, BucketConsistent b := by
  intro b hb
  have hslots : (makePool 1 (0 : Nat)).slots = [bucket2New (some 0)] := rfl
  rw [hslots, List.mem_singleton] at hb
  subst hb
  exact ⟨rfl, by decide, by decide⟩

/-- Witness for C5: on a concrete full one-bucket pool, `put` returns the
very value that was passed in. -/
theorem C5_put_installs_or_returns_witness :
    (poolPut (makePool 1 (0 : Nat)) 42).1 = some 42 ∧ (42 : Nat) = 42 :=
  ⟨by decide,
   (C5_put_installs_or_returns (makePool 1 (0 : Nat)) 42 makePool1_consistent).1 42
     (by decide)⟩

end SyncPoolModel
